import Mathlib

/-!
Shallow embedding of the HFT-Core ring buffers
(`src/include/RingBuffer.hpp` and `src/include/SPSC.hpp`), sequential
semantics.  Machine integers (`std::size_t`) are modelled as `Nat` with
explicit reduction modulo `2 ^ 64` where C++ unsigned wraparound can
occur (only the subtraction inside `Size`); indices are stored already
masked, exactly as the source stores them.  The compare-and-swap loops
in `RingBuffer::Push` (Overwrite branch) and `RingBuffer::Pop` always
succeed on their first attempt in a sequential execution, because no
other thread can change `head` between the load and the CAS, so they
are embedded as a single head update.
-/

namespace HftCore

/-- Width of `std::size_t` arithmetic: values live in `[0, 2^64)`. -/
def wordSize : Nat := 2 ^ 64

/-- Overflow policy of the ring buffer (`OverflowPolicy` in
`RingBuffer.hpp`): `Reject` refuses a push into a full buffer,
`Overwrite` evicts the oldest element. -/
inductive OverflowPolicy where
  | Reject
  | Overwrite
deriving DecidableEq, Repr

/-- Bit mask used for index wraparound: `Mask = Capacity - 1`. -/
def Mask (Capacity : Nat) : Nat := Capacity - 1

/-- State of `hft::core::RingBuffer<T, Capacity, Policy>`: the slot
array `buffer_` (length `Capacity`), and the atomic indices `tail`
and `head` (here plain naturals, since the embedding is sequential). -/
structure RingBuffer (T : Type) where
  buffer_ : List T
  tail : Nat
  head : Nat
deriving DecidableEq, Repr

/-- Initial state of a `RingBuffer`: value-initialized slot array
(`std::array<T, Capacity> buffer_ {}` modelled with the default
element), `tail = 0`, `head = 0`. -/
def RingBuffer.init (T : Type) [Inhabited T] (Capacity : Nat) : RingBuffer T :=
  { buffer_ := List.replicate Capacity default, tail := 0, head := 0 }

/-- `RingBuffer::Push` (sequential semantics).  Computes
`next_tail = (tail + 1) & Mask`; if the buffer is full
(`next_tail == head`) the `Reject` policy returns `false` without any
state change, while the `Overwrite` policy advances `head` one slot
(the CAS succeeds immediately when single-threaded) and falls through;
otherwise (and after eviction) the value is stored at the current tail
and `tail` advances to `next_tail`, returning `true`. -/
def RingBuffer.Push {T : Type} (Capacity : Nat) (Policy : OverflowPolicy)
    (rb : RingBuffer T) (value : T) : Bool × RingBuffer T :=
  let current_tail := rb.tail
  let next_tail := (current_tail + 1) &&& Mask Capacity
  let current_head := rb.head
  if next_tail = current_head then
    match Policy with
    | .Reject => (false, rb)
    | .Overwrite =>
      let next_head := (current_head + 1) &&& Mask Capacity
      (true, { buffer_ := rb.buffer_.set current_tail value
               tail := next_tail
               head := next_head })
  else
    (true, { rb with buffer_ := rb.buffer_.set current_tail value
                     tail := next_tail })

/-- `RingBuffer::Pop` (sequential semantics).  If `head == tail` the
buffer is empty and `Pop` returns `false` (modelled as `none`) without
state change; otherwise it reads the slot at `head` and advances
`head` (the CAS succeeds immediately when single-threaded), returning
the read value. -/
def RingBuffer.Pop {T : Type} [Inhabited T] (Capacity : Nat)
    (rb : RingBuffer T) : Option T × RingBuffer T :=
  let current_head := rb.head
  if current_head = rb.tail then
    (none, rb)
  else
    let potential_value := rb.buffer_.getD current_head default
    let next_head := (current_head + 1) &&& Mask Capacity
    (some potential_value, { rb with head := next_head })

/-- `RingBuffer::Empty`: `head == tail`. -/
def RingBuffer.Empty {T : Type} (rb : RingBuffer T) : Bool :=
  rb.head == rb.tail

/-- `RingBuffer::Size`: `(tail - head) & Mask`, where the subtraction
is `std::size_t` subtraction, i.e. performed modulo `2 ^ 64`. -/
def RingBuffer.Size {T : Type} (Capacity : Nat) (rb : RingBuffer T) : Nat :=
  ((wordSize + rb.tail - rb.head) % wordSize) &&& Mask Capacity

/-- `RingBuffer::Front`: asserts `!Empty()` and returns the slot at
`head`.  The assertion failure on an empty buffer is modelled as
`none`; on a non-empty buffer the result is `some` of the slot value. -/
def RingBuffer.Front {T : Type} [Inhabited T] (rb : RingBuffer T) : Option T :=
  if rb.Empty then none
  else some (rb.buffer_.getD rb.head default)

/-- Full-buffer test as written in `Push`:
`(tail + 1) & Mask == head`. -/
def RingBuffer.isFull {T : Type} (Capacity : Nat) (rb : RingBuffer T) : Bool :=
  ((rb.tail + 1) &&& Mask Capacity) == rb.head

/-- State of `hft::core::SPSCRingBuffer<T, Capacity>`: slot array,
`tail` (producer-owned), `head` (consumer-owned) and the atomic
`drop_count`. -/
structure SPSCRingBuffer (T : Type) where
  buffer_ : List T
  tail : Nat
  head : Nat
  drop_count : Nat
deriving DecidableEq, Repr

/-- Initial state of an `SPSCRingBuffer`: value-initialized slots,
`tail = 0`, `head = 0`, `drop_count = 0`. -/
def SPSCRingBuffer.init (T : Type) [Inhabited T] (Capacity : Nat) : SPSCRingBuffer T :=
  { buffer_ := List.replicate Capacity default, tail := 0, head := 0, drop_count := 0 }

/-- `SPSCRingBuffer::Push`: if `(tail + 1) & Mask == head` the buffer
is full, `drop_count` is incremented (`fetch_add` on `std::size_t`,
hence modulo `2 ^ 64`) and `false` is returned; otherwise the value is
stored at `tail` and `tail` advances, returning `true`. -/
def SPSCRingBuffer.Push {T : Type} (Capacity : Nat)
    (rb : SPSCRingBuffer T) (value : T) : Bool × SPSCRingBuffer T :=
  let curr_tail := rb.tail
  let next_tail := (curr_tail + 1) &&& Mask Capacity
  if next_tail = rb.head then
    (false, { rb with drop_count := (rb.drop_count + 1) % wordSize })
  else
    (true, { rb with buffer_ := rb.buffer_.set curr_tail value
                     tail := next_tail })

/-- `SPSCRingBuffer::Pop`: if `head == tail` the buffer is empty and
`false` (modelled `none`) is returned; otherwise the slot at `head` is
copied out and `head` advances. -/
def SPSCRingBuffer.Pop {T : Type} [Inhabited T] (Capacity : Nat)
    (rb : SPSCRingBuffer T) : Option T × SPSCRingBuffer T :=
  let curr_head := rb.head
  if curr_head = rb.tail then
    (none, rb)
  else
    let out_value := rb.buffer_.getD curr_head default
    (some out_value, { rb with head := (curr_head + 1) &&& Mask Capacity })

/-- `SPSCRingBuffer::GetDropCount`: reads `drop_count`. -/
def SPSCRingBuffer.GetDropCount {T : Type} (rb : SPSCRingBuffer T) : Nat :=
  rb.drop_count

/-- `SPSCRingBuffer::Empty`: `head == tail`. -/
def SPSCRingBuffer.Empty {T : Type} (rb : SPSCRingBuffer T) : Bool :=
  rb.head == rb.tail

/-- Full-buffer test of the SPSC push: `(tail + 1) & Mask == head`. -/
def SPSCRingBuffer.isFull {T : Type} (Capacity : Nat) (rb : SPSCRingBuffer T) : Bool :=
  ((rb.tail + 1) &&& Mask Capacity) == rb.head

/-- The static assertion on the capacity, shared verbatim by both
class templates:
`static_assert((Capacity != 0) && ((Capacity & (Capacity - 1)) == 0))`.
A capacity compiles exactly when this returns `true`. -/
def capacityAssertOk (Capacity : Nat) : Bool :=
  (Capacity != 0) && ((Capacity &&& (Capacity - 1)) == 0)

/-- A single sequential operation on a buffer: a push of a value, or a
pop. -/
inductive Op (T : Type) where
  | push (v : T)
  | pop
deriving DecidableEq, Repr

/-- One sequential step of the `RingBuffer`, discarding the boolean
result. -/
def RingBuffer.step {T : Type} [Inhabited T] (Capacity : Nat)
    (Policy : OverflowPolicy) (rb : RingBuffer T) : Op T → RingBuffer T
  | .push v => (rb.Push Capacity Policy v).2
  | .pop => (rb.Pop Capacity).2

/-- Run a list of operations on a `RingBuffer` state. -/
def RingBuffer.run {T : Type} [Inhabited T] (Capacity : Nat)
    (Policy : OverflowPolicy) (rb : RingBuffer T) : List (Op T) → RingBuffer T
  | [] => rb
  | op :: ops => RingBuffer.run Capacity Policy (rb.step Capacity Policy op) ops

/-- A `RingBuffer` state is reachable when some sequence of operations
produces it from the initial state. -/
def RingBuffer.Reachable {T : Type} [Inhabited T] (Capacity : Nat)
    (Policy : OverflowPolicy) (rb : RingBuffer T) : Prop :=
  ∃ ops : List (Op T), RingBuffer.run Capacity Policy (RingBuffer.init T Capacity) ops = rb

/-- One sequential step of the `SPSCRingBuffer`, discarding the
boolean result. -/
def SPSCRingBuffer.step {T : Type} [Inhabited T] (Capacity : Nat)
    (rb : SPSCRingBuffer T) : Op T → SPSCRingBuffer T
  | .push v => (rb.Push Capacity v).2
  | .pop => (rb.Pop Capacity).2

/-- Run a list of operations on an `SPSCRingBuffer` state. -/
def SPSCRingBuffer.run {T : Type} [Inhabited T] (Capacity : Nat)
    (rb : SPSCRingBuffer T) : List (Op T) → SPSCRingBuffer T
  | [] => rb
  | op :: ops => SPSCRingBuffer.run Capacity (rb.step Capacity op) ops

/-- An `SPSCRingBuffer` state is reachable when some sequence of
operations produces it from the initial state. -/
def SPSCRingBuffer.Reachable {T : Type} [Inhabited T] (Capacity : Nat)
    (rb : SPSCRingBuffer T) : Prop :=
  ∃ ops : List (Op T), SPSCRingBuffer.run Capacity (SPSCRingBuffer.init T Capacity) ops = rb

/-- Abstract contents of a `RingBuffer`: the `Size` slots starting at
`head`, oldest first. -/
def RingBuffer.toList {T : Type} [Inhabited T] (Capacity : Nat)
    (rb : RingBuffer T) : List T :=
  (List.range (rb.Size Capacity)).map
    fun i => rb.buffer_.getD ((rb.head + i) % Capacity) default

/-- Projection of an SPSC buffer onto the plain ring-buffer state
(forgetting `drop_count`); sequentially, `SPSCRingBuffer::Push`/`Pop`
act on this projection exactly like the `Reject`-policy
`RingBuffer::Push`/`Pop`. -/
def SPSCRingBuffer.toRB {T : Type} (rb : SPSCRingBuffer T) : RingBuffer T :=
  { buffer_ := rb.buffer_, tail := rb.tail, head := rb.head }

/-! ### Arithmetic helpers for masked index arithmetic -/

theorem mask_eq_mod (k x : Nat) : x &&& Mask (2 ^ k) = x % 2 ^ k := by
  simp [Mask, Nat.and_pow_two_sub_one_eq_mod]

theorem add_mod_cases {a b C : Nat} (ha : a < C) (hb : b < C) :
    ((a + b) % C = a + b ∧ a + b < C) ∨ ((a + b) % C = a + b - C ∧ C ≤ a + b) := by
  rcases Nat.lt_or_ge (a + b) C with h | h
  · exact Or.inl ⟨Nat.mod_eq_of_lt h, h⟩
  · refine Or.inr ⟨?_, h⟩
    rw [Nat.mod_eq_sub_mod h, Nat.mod_eq_of_lt (by omega)]

theorem succ_mod_cases {t C : Nat} (ht : t < C) :
    ((t + 1) % C = t + 1 ∧ t + 1 < C) ∨ ((t + 1) % C = 0 ∧ t + 1 = C) := by
  rcases Nat.lt_or_ge (t + 1) C with h | h
  · exact Or.inl ⟨Nat.mod_eq_of_lt h, h⟩
  · have h2 : t + 1 = C := by omega
    exact Or.inr ⟨by rw [h2, Nat.mod_self], h2⟩

theorem occupied_mod {hd L C : Nat} (hh : hd < C) (hL : L < C) :
    (C + (hd + L) % C - hd) % C = L := by
  rcases add_mod_cases hh hL with ⟨h1, h2⟩ | ⟨h1, h2⟩
  · rw [h1]
    have h3 : C + (hd + L) - hd = C + L := by omega
    rw [h3, Nat.add_mod_left, Nat.mod_eq_of_lt hL]
  · rw [h1]
    have h3 : C + (hd + L - C) - hd = L := by omega
    rw [h3, Nat.mod_eq_of_lt hL]

theorem add_mod_inj {hd i j C : Nat} (hh : hd < C) (hi : i < C) (hj : j < C)
    (h : (hd + i) % C = (hd + j) % C) : i = j := by
  rcases add_mod_cases hh hi with ⟨h1, h2⟩ | ⟨h1, h2⟩ <;>
    rcases add_mod_cases hh hj with ⟨h3, h4⟩ | ⟨h3, h4⟩ <;> omega

theorem next_tail_eq_head_iff {hd L C : Nat} (hh : hd < C) (hL : L < C) :
    ((hd + L) % C + 1) % C = hd ↔ L = C - 1 := by
  have ht : (hd + L) % C < C := Nat.mod_lt _ (by omega)
  rcases succ_mod_cases ht with ⟨h1, h2⟩ | ⟨h1, h2⟩ <;>
    rcases add_mod_cases hh hL with ⟨h3, h4⟩ | ⟨h3, h4⟩ <;> omega

theorem tail_eq_head_iff {hd L C : Nat} (hh : hd < C) (hL : L < C) :
    (hd + L) % C = hd ↔ L = 0 := by
  rcases add_mod_cases hh hL with ⟨h1, h2⟩ | ⟨h1, h2⟩ <;> omega

/-! ### List access helpers phrased with `getD` -/

theorem getD_set_self {T : Type} [Inhabited T] (l : List T) (j : Nat) (v : T)
    (h : j < l.length) : (l.set j v).getD j default = v := by
  simp [List.getD_eq_getElem?_getD, List.getElem?_set_self h]

theorem getD_set_ne {T : Type} [Inhabited T] (l : List T) (i j : Nat) (v : T)
    (h : i ≠ j) : (l.set i v).getD j default = l.getD j default := by
  simp [List.getD_eq_getElem?_getD, List.getElem?_set_ne h]

theorem getD_append_left {T : Type} [Inhabited T] (l l2 : List T) (i : Nat)
    (h : i < l.length) : (l ++ l2).getD i default = l.getD i default := by
  simp [List.getD_eq_getElem?_getD, List.getElem?_append_left h]

theorem getD_concat_self {T : Type} [Inhabited T] (l : List T) (v : T) :
    (l ++ [v]).getD l.length default = v := by
  simp [List.getD_eq_getElem?_getD, List.getElem?_concat_length]

/-! ### Simulation relation with an abstract queue -/

/-- `bufAbs C rb q`: the `RingBuffer` state `rb` represents the
abstract queue `q` (oldest element first). -/
def bufAbs {T : Type} [Inhabited T] (C : Nat) (rb : RingBuffer T) (q : List T) : Prop :=
  rb.buffer_.length = C ∧ rb.head < C ∧ rb.tail = (rb.head + q.length) % C ∧
  q.length < C ∧
  ∀ i, i < q.length → rb.buffer_.getD ((rb.head + i) % C) default = q.getD i default

theorem bufAbs_init (T : Type) [Inhabited T] {C : Nat} (hC : 0 < C) :
    bufAbs C (RingBuffer.init T C) [] := by
  refine ⟨by simp [RingBuffer.init], hC, ?_, hC, ?_⟩
  · simp [RingBuffer.init, Nat.mod_eq_of_lt hC]
  · intro i hi
    simp at hi

theorem bufAbs_tail_lt {T : Type} [Inhabited T] {C : Nat} {rb : RingBuffer T}
    {q : List T} (hab : bufAbs C rb q) : rb.tail < C := by
  obtain ⟨-, hh, htail, -, -⟩ := hab
  rw [htail]
  exact Nat.mod_lt _ (by omega)

theorem mask_succ_tail {T : Type} [Inhabited T] {k C : Nat} (hC : C = 2 ^ k)
    {rb : RingBuffer T} {q : List T} (hab : bufAbs C rb q) :
    (rb.tail + 1) &&& Mask C = ((rb.head + q.length) % C + 1) % C := by
  obtain ⟨-, -, htail, -, -⟩ := hab
  rw [hC, mask_eq_mod, ← hC, htail]

theorem push_not_full {T : Type} [Inhabited T] {k C : Nat} (hC : C = 2 ^ k)
    {rb : RingBuffer T} {q : List T} (hab : bufAbs C rb q)
    (hroom : q.length + 1 < C) (P : OverflowPolicy) (v : T) :
    rb.Push C P v = (true, { buffer_ := rb.buffer_.set rb.tail v
                             tail := (rb.tail + 1) % C
                             head := rb.head }) ∧
    bufAbs C (rb.Push C P v).2 (q ++ [v]) := by
  obtain ⟨hlen, hh, htail, hqlen, hslots⟩ := hab
  have hmaskt : (rb.tail + 1) &&& Mask C = ((rb.head + q.length) % C + 1) % C :=
    mask_succ_tail hC ⟨hlen, hh, htail, hqlen, hslots⟩
  have hcond : ¬((rb.tail + 1) &&& Mask C = rb.head) := by
    rw [hmaskt]
    intro h
    exact absurd ((next_tail_eq_head_iff hh hqlen).1 h) (by omega)
  have htlt : rb.tail < C := bufAbs_tail_lt ⟨hlen, hh, htail, hqlen, hslots⟩
  have hpush : rb.Push C P v = (true, { buffer_ := rb.buffer_.set rb.tail v
                                        tail := (rb.tail + 1) % C
                                        head := rb.head }) := by
    simp only [RingBuffer.Push, if_neg hcond]
    rw [hC, mask_eq_mod, ← hC]
  refine ⟨hpush, ?_⟩
  rw [hpush]
  refine ⟨by simpa using hlen, hh, ?_, by simpa using hroom, ?_⟩
  · show (rb.tail + 1) % C = (rb.head + (q ++ [v]).length) % C
    rw [htail, Nat.mod_add_mod]
    simp [Nat.add_assoc]
  · intro i hi
    simp only [List.length_append, List.length_cons, List.length_nil] at hi
    rcases Nat.lt_or_ge i q.length with hilt | hige
    · have hne : rb.tail ≠ (rb.head + i) % C := by
        intro h
        rw [htail] at h
        exact absurd (add_mod_inj hh hqlen (by omega) h) (by omega)
      show (rb.buffer_.set rb.tail v).getD ((rb.head + i) % C) default
          = (q ++ [v]).getD i default
      rw [getD_set_ne _ _ _ _ hne, getD_append_left _ _ _ hilt]
      exact hslots i hilt
    · have hieq : i = q.length := by omega
      subst hieq
      show (rb.buffer_.set rb.tail v).getD ((rb.head + q.length) % C) default
          = (q ++ [v]).getD q.length default
      rw [← htail, getD_set_self _ _ _ (by omega), getD_concat_self]

theorem push_full_reject {T : Type} [Inhabited T] {k C : Nat} (hC : C = 2 ^ k)
    {rb : RingBuffer T} {q : List T} (hab : bufAbs C rb q)
    (hfull : q.length = C - 1) (v : T) :
    rb.Push C .Reject v = (false, rb) := by
  obtain ⟨hlen, hh, htail, hqlen, hslots⟩ := hab
  have hcond : (rb.tail + 1) &&& Mask C = rb.head := by
    rw [mask_succ_tail hC ⟨hlen, hh, htail, hqlen, hslots⟩]
    exact (next_tail_eq_head_iff hh hqlen).2 hfull
  simp only [RingBuffer.Push, if_pos hcond]

theorem push_full_overwrite {T : Type} [Inhabited T] {k C : Nat} (hC : C = 2 ^ k)
    (hk : 0 < k) {rb : RingBuffer T} {x : T} {q2 : List T}
    (hab : bufAbs C rb (x :: q2)) (hfull : q2.length + 1 = C - 1) (v : T) :
    (rb.Push C .Overwrite v).1 = true ∧
    (rb.Push C .Overwrite v).2 = { buffer_ := rb.buffer_.set rb.tail v
                                   tail := (rb.tail + 1) % C
                                   head := (rb.head + 1) % C } ∧
    bufAbs C (rb.Push C .Overwrite v).2 (q2 ++ [v]) := by
  obtain ⟨hlen, hh, htail, hqlen, hslots⟩ := hab
  have hC2 : 2 ≤ C := by
    rw [hC]
    calc 2 = 2 ^ 1 := by norm_num
    _ ≤ 2 ^ k := Nat.pow_le_pow_right (by norm_num) hk
  have hqlen2 : (x :: q2).length = C - 1 := by
    simp only [List.length_cons]
    omega
  have hcond : (rb.tail + 1) &&& Mask C = rb.head := by
    rw [mask_succ_tail hC ⟨hlen, hh, htail, hqlen, hslots⟩]
    exact (next_tail_eq_head_iff hh hqlen).2 hqlen2
  have htlt : rb.tail < C := bufAbs_tail_lt ⟨hlen, hh, htail, hqlen, hslots⟩
  have hpush : rb.Push C .Overwrite v
      = (true, { buffer_ := rb.buffer_.set rb.tail v
                 tail := (rb.tail + 1) % C
                 head := (rb.head + 1) % C }) := by
    simp only [RingBuffer.Push, if_pos hcond]
    rw [hC, mask_eq_mod, mask_eq_mod, ← hC]
  rw [hpush]
  refine ⟨rfl, rfl, by simpa using hlen, Nat.mod_lt _ (by omega), ?_, ?_, ?_⟩
  · show (rb.tail + 1) % C = ((rb.head + 1) % C + (q2 ++ [v]).length) % C
    rw [htail, Nat.mod_add_mod, Nat.mod_add_mod]
    simp only [List.length_append, List.length_cons, List.length_nil, List.length_singleton]
    congr 1
    omega
  · simp only [List.length_append, List.length_singleton]
    omega
  · intro i hi
    simp only [List.length_append, List.length_singleton] at hi
    have hidx : ((rb.head + 1) % C + i) % C = (rb.head + (i + 1)) % C := by
      rw [Nat.mod_add_mod]
      congr 1
      omega
    show (rb.buffer_.set rb.tail v).getD (((rb.head + 1) % C + i) % C) default
        = (q2 ++ [v]).getD i default
    rw [hidx]
    rcases Nat.lt_or_ge i q2.length with hilt | hige
    · have hne : rb.tail ≠ (rb.head + (i + 1)) % C := by
        intro h
        rw [htail] at h
        have := add_mod_inj hh hqlen (by omega) h
        simp only [List.length_cons] at this
        omega
      rw [getD_set_ne _ _ _ _ hne, getD_append_left _ _ _ hilt]
      have h2 := hslots (i + 1) (by simp only [List.length_cons]; omega)
      simpa using h2
    · have hieq : i = q2.length := by omega
      subst hieq
      have hidx2 : (rb.head + (q2.length + 1)) % C = rb.tail := by
        rw [htail]
        simp
      rw [hidx2, getD_set_self _ _ _ (by omega), getD_concat_self]

theorem pop_empty {T : Type} [Inhabited T] {C : Nat}
    {rb : RingBuffer T} (hab : bufAbs C rb []) :
    rb.Pop C = (none, rb) := by
  obtain ⟨-, hh, htail, -, -⟩ := hab
  have hht : rb.head = rb.tail := by
    rw [htail]
    simp [Nat.mod_eq_of_lt hh]
  simp only [RingBuffer.Pop, if_pos hht]

theorem pop_cons {T : Type} [Inhabited T] {k C : Nat} (hC : C = 2 ^ k)
    {rb : RingBuffer T} {x : T} {q2 : List T} (hab : bufAbs C rb (x :: q2)) :
    rb.Pop C = (some x, { rb with head := (rb.head + 1) % C }) ∧
    bufAbs C (rb.Pop C).2 q2 := by
  obtain ⟨hlen, hh, htail, hqlen, hslots⟩ := hab
  have hqpos : 0 < (x :: q2).length := by simp
  have hne : ¬(rb.head = rb.tail) := by
    rw [htail]
    intro h
    have := (tail_eq_head_iff hh hqlen).1 h.symm
    simp at this
  have hval : rb.buffer_.getD rb.head default = x := by
    have h0 := hslots 0 (by simp)
    rw [Nat.add_zero, Nat.mod_eq_of_lt hh] at h0
    simpa using h0
  have hpop : rb.Pop C = (some x, { rb with head := (rb.head + 1) % C }) := by
    simp only [RingBuffer.Pop, if_neg hne, hval]
    rw [hC, mask_eq_mod, ← hC]
  rw [hpop]
  refine ⟨rfl, hlen, Nat.mod_lt _ (by omega), ?_, by simp at hqlen; omega, ?_⟩
  · show rb.tail = ((rb.head + 1) % C + q2.length) % C
    rw [htail, Nat.mod_add_mod]
    simp only [List.length_cons]
    congr 1
    omega
  · intro i hi
    have hidx : ((rb.head + 1) % C + i) % C = (rb.head + (i + 1)) % C := by
      rw [Nat.mod_add_mod]
      congr 1
      omega
    show rb.buffer_.getD (((rb.head + 1) % C + i) % C) default = q2.getD i default
    rw [hidx]
    have h2 := hslots (i + 1) (by simp only [List.length_cons]; omega)
    simpa using h2

theorem two_le_of_pow {k C : Nat} (hC : C = 2 ^ k) (hk : 0 < k) : 2 ≤ C := by
  rw [hC]
  calc 2 = 2 ^ 1 := by norm_num
  _ ≤ 2 ^ k := Nat.pow_le_pow_right (by norm_num) hk

theorem size_eq_len {T : Type} [Inhabited T] {k C : Nat} (hC : C = 2 ^ k)
    (hk64 : k ≤ 64) {rb : RingBuffer T} {q : List T} (hab : bufAbs C rb q) :
    rb.Size C = q.length := by
  obtain ⟨hlen, hh, htail, hqlen, -⟩ := hab
  have hdvd : C ∣ wordSize := by
    rw [hC, wordSize]
    exact Nat.pow_dvd_pow 2 hk64
  have hCw : C ≤ wordSize := Nat.le_of_dvd (by norm_num [wordSize]) hdvd
  have hdvd2 : C ∣ wordSize - C := Nat.dvd_sub' hdvd dvd_rfl
  obtain ⟨m, hm⟩ := hdvd2
  unfold RingBuffer.Size
  rw [hC, mask_eq_mod, ← hC, Nat.mod_mod_of_dvd _ hdvd, htail]
  have htlt : (rb.head + q.length) % C < C := Nat.mod_lt _ (by omega)
  have h5 : wordSize + (rb.head + q.length) % C - rb.head
      = C * m + (C + (rb.head + q.length) % C - rb.head) := by omega
  rw [h5, Nat.mul_add_mod, occupied_mod hh hqlen]

theorem empty_iff_nil {T : Type} [Inhabited T] {C : Nat}
    {rb : RingBuffer T} {q : List T} (hab : bufAbs C rb q) :
    rb.Empty = true ↔ q = [] := by
  obtain ⟨-, hh, htail, hqlen, -⟩ := hab
  unfold RingBuffer.Empty
  rw [beq_iff_eq, eq_comm, htail, tail_eq_head_iff hh hqlen, List.length_eq_zero]

theorem isFull_iff {T : Type} [Inhabited T] {k C : Nat} (hC : C = 2 ^ k)
    {rb : RingBuffer T} {q : List T} (hab : bufAbs C rb q) :
    rb.isFull C = true ↔ q.length = C - 1 := by
  have hh := hab.2.1
  have hqlen := hab.2.2.2.1
  unfold RingBuffer.isFull
  rw [beq_iff_eq, mask_succ_tail hC hab]
  exact next_tail_eq_head_iff hh hqlen

theorem front_eq {T : Type} [Inhabited T] {C : Nat}
    {rb : RingBuffer T} {q : List T} (hab : bufAbs C rb q) :
    rb.Front = q.head? := by
  cases q with
  | nil =>
    have he : rb.Empty = true := (empty_iff_nil hab).2 rfl
    simp [RingBuffer.Front, he]
  | cons x q2 =>
    have he : rb.Empty = false := by
      rcases Bool.eq_false_or_eq_true rb.Empty with h | h
      · exact absurd ((empty_iff_nil hab).1 h) (by simp)
      · exact h
    obtain ⟨-, hh, -, -, hslots⟩ := hab
    have hval : rb.buffer_.getD rb.head default = x := by
      have h0 := hslots 0 (by simp)
      rw [Nat.add_zero, Nat.mod_eq_of_lt hh] at h0
      simpa using h0
    rw [RingBuffer.Front, if_neg (by simp [he]), hval]
    simp

theorem toList_eq {T : Type} [Inhabited T] {k C : Nat} (hC : C = 2 ^ k)
    (hk64 : k ≤ 64) {rb : RingBuffer T} {q : List T} (hab : bufAbs C rb q) :
    rb.toList C = q := by
  have hsz : rb.Size C = q.length := size_eq_len hC hk64 hab
  obtain ⟨hlen, hh, htail, hqlen, hslots⟩ := hab
  unfold RingBuffer.toList
  rw [hsz]
  apply List.ext_getElem (by simp)
  intro i h1 h2
  simp only [List.getElem_map, List.getElem_range]
  have h3 := hslots i (by simpa using h2)
  rw [h3]
  simp [List.getD_eq_getElem?_getD, List.getElem?_eq_getElem h2]

/-! ### Reachability invariant for the concurrent ring buffer -/

theorem run_abs {T : Type} [Inhabited T] {k C : Nat} (hC : C = 2 ^ k)
    (hk : 0 < k) (P : OverflowPolicy) :
    ∀ (ops : List (Op T)) (rb : RingBuffer T) (q : List T), bufAbs C rb q →
      ∃ q2, bufAbs C (RingBuffer.run C P rb ops) q2 := by
  intro ops
  induction ops with
  | nil =>
    intro rb q hab
    exact ⟨q, hab⟩
  | cons op ops ih =>
    intro rb q hab
    have hC2 : 2 ≤ C := two_le_of_pow hC hk
    cases op with
    | push v =>
      rcases Nat.lt_or_ge (q.length + 1) C with hroom | hfull
      · have h := push_not_full hC hab hroom P v
        simp only [RingBuffer.run, RingBuffer.step]
        exact ih _ _ h.2
      · have hfull2 : q.length = C - 1 := by
          have := hab.2.2.2.1
          omega
        cases P with
        | Reject =>
          have h := push_full_reject hC hab hfull2 v
          simp only [RingBuffer.run, RingBuffer.step, h]
          exact ih _ _ hab
        | Overwrite =>
          cases q with
          | nil =>
            simp at hfull2
            omega
          | cons x q2 =>
            have h := push_full_overwrite hC hk hab
              (by simpa using hfull2) v
            simp only [RingBuffer.run, RingBuffer.step]
            exact ih _ _ h.2.2
    | pop =>
      cases q with
      | nil =>
        have h := pop_empty hab
        simp only [RingBuffer.run, RingBuffer.step, h]
        exact ih _ _ hab
      | cons x q2 =>
        obtain ⟨-, h2⟩ := pop_cons hC hab
        simp only [RingBuffer.run, RingBuffer.step]
        exact ih _ _ h2

theorem reachable_abs {T : Type} [Inhabited T] {k C : Nat} (hC : C = 2 ^ k)
    (hk : 0 < k) (P : OverflowPolicy) {rb : RingBuffer T}
    (h : RingBuffer.Reachable C P rb) : ∃ q, bufAbs C rb q := by
  obtain ⟨ops, hops⟩ := h
  rw [← hops]
  exact run_abs hC hk P ops _ [] (bufAbs_init T (by have := two_le_of_pow hC hk; omega))

/-! ### Trace helpers: batched pushes and pops, collected pop outputs -/

/-- Arguments of the push operations of an operation sequence, in
order. -/
def pushedVals {T : Type} : List (Op T) → List T
  | [] => []
  | .push v :: ops => v :: pushedVals ops
  | .pop :: ops => pushedVals ops

/-- Push each value of `vs` in order, collecting the boolean results. -/
def RingBuffer.pushAll {T : Type} (C : Nat) (P : OverflowPolicy)
    (rb : RingBuffer T) : List T → List Bool × RingBuffer T
  | [] => ([], rb)
  | v :: vs =>
    let r := rb.Push C P v
    let rest := RingBuffer.pushAll C P r.2 vs
    (r.1 :: rest.1, rest.2)

/-- Pop `n` times, collecting the results (`none` encodes a `Pop` that
returned `false`). -/
def RingBuffer.popN {T : Type} [Inhabited T] (C : Nat)
    (rb : RingBuffer T) : Nat → List (Option T) × RingBuffer T
  | 0 => ([], rb)
  | n + 1 =>
    let r := rb.Pop C
    let rest := RingBuffer.popN C r.2 n
    (r.1 :: rest.1, rest.2)

/-- Values returned by the successful pops of an operation sequence,
in order. -/
def RingBuffer.runPops {T : Type} [Inhabited T] (C : Nat)
    (P : OverflowPolicy) (rb : RingBuffer T) : List (Op T) → List T
  | [] => []
  | .push v :: ops => RingBuffer.runPops C P (rb.Push C P v).2 ops
  | .pop :: ops =>
    let r := rb.Pop C
    match r.1 with
    | none => RingBuffer.runPops C P r.2 ops
    | some x => x :: RingBuffer.runPops C P r.2 ops

/-- True when no push of the operation sequence is executed on a full
buffer. -/
def RingBuffer.noFullRun {T : Type} [Inhabited T] (C : Nat)
    (P : OverflowPolicy) (rb : RingBuffer T) : List (Op T) → Bool
  | [] => true
  | .push v :: ops => !(rb.isFull C) && RingBuffer.noFullRun C P ((rb.Push C P v).2) ops
  | .pop :: ops => RingBuffer.noFullRun C P ((rb.Pop C).2) ops

theorem pushAll_abs {T : Type} [Inhabited T] {k C : Nat} (hC : C = 2 ^ k)
    (P : OverflowPolicy) :
    ∀ (vs : List T) (rb : RingBuffer T) (q : List T), bufAbs C rb q →
      q.length + vs.length ≤ C - 1 →
      (RingBuffer.pushAll C P rb vs).1 = List.replicate vs.length true ∧
      bufAbs C (RingBuffer.pushAll C P rb vs).2 (q ++ vs) := by
  intro vs
  induction vs with
  | nil =>
    intro rb q hab hroom
    simpa [RingBuffer.pushAll] using hab
  | cons v vs ih =>
    intro rb q hab hroom
    have hq1 : q.length + 1 < C := by
      have := hab.2.2.2.1
      simp only [List.length_cons] at hroom
      omega
    obtain ⟨hpush, hab2⟩ := push_not_full hC hab hq1 P v
    simp only [hpush] at hab2
    have ih2 := ih _ _ hab2 (by simp at hroom ⊢; omega)
    simp only [RingBuffer.pushAll, hpush, List.length_cons, List.replicate_succ]
    constructor
    · simp only [ih2.1]
    · have := ih2.2
      simpa [List.append_assoc] using this

theorem popN_abs {T : Type} [Inhabited T] {k C : Nat} (hC : C = 2 ^ k) :
    ∀ (n : Nat) (rb : RingBuffer T) (q : List T), bufAbs C rb q → n ≤ q.length →
      (RingBuffer.popN C rb n).1 = (q.take n).map some ∧
      bufAbs C (RingBuffer.popN C rb n).2 (q.drop n) := by
  intro n
  induction n with
  | zero =>
    intro rb q hab hn
    simpa [RingBuffer.popN] using hab
  | succ n ih =>
    intro rb q hab hn
    cases q with
    | nil => simp at hn
    | cons x q2 =>
      obtain ⟨hpop, hab2⟩ := pop_cons hC hab
      simp only [hpop] at hab2
      have ih2 := ih _ _ hab2 (by simp only [List.length_cons] at hn; omega)
      simp only [RingBuffer.popN, hpop, List.take_succ_cons, List.drop_succ_cons,
        List.map_cons]
      exact ⟨by simp only [ih2.1], ih2.2⟩

theorem runPops_conserve {T : Type} [Inhabited T] {k C : Nat} (hC : C = 2 ^ k)
    (P : OverflowPolicy) :
    ∀ (ops : List (Op T)) (rb : RingBuffer T) (q : List T), bufAbs C rb q →
      RingBuffer.noFullRun C P rb ops = true →
      ∃ q2, bufAbs C (RingBuffer.run C P rb ops) q2 ∧
        RingBuffer.runPops C P rb ops ++ q2 = q ++ pushedVals ops := by
  intro ops
  induction ops with
  | nil =>
    intro rb q hab hnf
    exact ⟨q, hab, by simp [RingBuffer.runPops, pushedVals]⟩
  | cons op ops ih =>
    intro rb q hab hnf
    cases op with
    | push v =>
      simp only [RingBuffer.noFullRun, Bool.and_eq_true, Bool.not_eq_eq_eq_not,
        Bool.not_true] at hnf
      have hnotfull : q.length ≠ C - 1 := by
        intro h
        rw [← isFull_iff hC hab] at h
        simp [h] at hnf
      have hroom : q.length + 1 < C := by
        have := hab.2.2.2.1
        omega
      obtain ⟨hpush, hab2⟩ := push_not_full hC hab hroom P v
      simp only [hpush] at hab2
      have hnf2 := hnf.2
      simp only [hpush] at hnf2
      obtain ⟨q2, habf, heq⟩ := ih _ _ hab2 hnf2
      refine ⟨q2, ?_, ?_⟩
      · simpa only [RingBuffer.run, RingBuffer.step, hpush] using habf
      · simp only [RingBuffer.runPops, pushedVals, hpush]
        rw [heq]
        simp [List.append_assoc]
    | pop =>
      simp only [RingBuffer.noFullRun] at hnf
      cases q with
      | nil =>
        have hpop := pop_empty hab
        simp only [hpop] at hnf
        obtain ⟨q2, habf, heq⟩ := ih _ _ hab hnf
        refine ⟨q2, ?_, ?_⟩
        · simpa only [RingBuffer.run, RingBuffer.step, hpop] using habf
        · simp only [RingBuffer.runPops, pushedVals, hpop]
          simpa using heq
      | cons x q2 =>
        obtain ⟨hpop, hab2⟩ := pop_cons hC hab
        simp only [hpop] at hab2 hnf
        obtain ⟨q3, habf, heq⟩ := ih _ _ hab2 hnf
        refine ⟨q3, ?_, ?_⟩
        · simpa only [RingBuffer.run, RingBuffer.step, hpop] using habf
        · simp only [RingBuffer.runPops, pushedVals, hpop, List.cons_append]
          rw [heq]

/-! ### SPSC buffer: projection to the plain ring-buffer state -/

theorem toRB_init (T : Type) [Inhabited T] (C : Nat) :
    (SPSCRingBuffer.init T C).toRB = RingBuffer.init T C := rfl

theorem spsc_isFull_proj {T : Type} (C : Nat) (rb : SPSCRingBuffer T) :
    rb.isFull C = rb.toRB.isFull C := rfl

theorem spsc_push_proj {T : Type} (C : Nat) (rb : SPSCRingBuffer T) (v : T) :
    (rb.Push C v).1 = (rb.toRB.Push C .Reject v).1 ∧
    (rb.Push C v).2.toRB = (rb.toRB.Push C .Reject v).2 := by
  unfold SPSCRingBuffer.Push RingBuffer.Push SPSCRingBuffer.toRB
  by_cases h : (rb.tail + 1) &&& Mask C = rb.head <;> simp [h]

theorem spsc_pop_proj {T : Type} [Inhabited T] (C : Nat) (rb : SPSCRingBuffer T) :
    (rb.Pop C).1 = (rb.toRB.Pop C).1 ∧
    (rb.Pop C).2.toRB = (rb.toRB.Pop C).2 := by
  unfold SPSCRingBuffer.Pop RingBuffer.Pop SPSCRingBuffer.toRB
  by_cases h : rb.head = rb.tail <;> simp [h]

theorem spsc_empty_proj {T : Type} (rb : SPSCRingBuffer T) :
    rb.Empty = rb.toRB.Empty := rfl

theorem spsc_step_proj {T : Type} [Inhabited T] (C : Nat)
    (rb : SPSCRingBuffer T) (op : Op T) :
    (rb.step C op).toRB = rb.toRB.step C .Reject op := by
  cases op with
  | push v => exact (spsc_push_proj C rb v).2
  | pop => exact (spsc_pop_proj C rb).2

theorem spsc_run_proj {T : Type} [Inhabited T] (C : Nat) :
    ∀ (ops : List (Op T)) (rb : SPSCRingBuffer T),
      (SPSCRingBuffer.run C rb ops).toRB = RingBuffer.run C .Reject rb.toRB ops := by
  intro ops
  induction ops with
  | nil => intro rb; rfl
  | cons op ops ih =>
    intro rb
    simp only [SPSCRingBuffer.run, RingBuffer.run]
    rw [ih, spsc_step_proj]

theorem spsc_reachable_proj {T : Type} [Inhabited T] {C : Nat}
    {rb : SPSCRingBuffer T} (h : SPSCRingBuffer.Reachable C rb) :
    RingBuffer.Reachable C .Reject rb.toRB := by
  obtain ⟨ops, hops⟩ := h
  exact ⟨ops, by rw [← hops, spsc_run_proj, toRB_init]⟩

/-! ### SPSC drop-count accounting -/

theorem spsc_push_false_iff {T : Type} (C : Nat) (rb : SPSCRingBuffer T) (v : T) :
    (rb.Push C v).1 = false ↔ rb.isFull C = true := by
  unfold SPSCRingBuffer.Push SPSCRingBuffer.isFull
  by_cases h : (rb.tail + 1) &&& Mask C = rb.head <;> simp [h]

theorem spsc_push_drop {T : Type} (C : Nat) (rb : SPSCRingBuffer T) (v : T) :
    (rb.Push C v).2.drop_count
      = if (rb.Push C v).1 then rb.drop_count else (rb.drop_count + 1) % wordSize := by
  unfold SPSCRingBuffer.Push
  by_cases h : (rb.tail + 1) &&& Mask C = rb.head <;> simp [h]

theorem spsc_pop_drop {T : Type} [Inhabited T] (C : Nat) (rb : SPSCRingBuffer T) :
    (rb.Pop C).2.drop_count = rb.drop_count := by
  unfold SPSCRingBuffer.Pop
  by_cases h : rb.head = rb.tail <;> simp [h]

/-- Number of pushes of the operation sequence that return `false`
when executed from `rb`. -/
def SPSCRingBuffer.failedCount {T : Type} [Inhabited T] (C : Nat)
    (rb : SPSCRingBuffer T) : List (Op T) → Nat
  | [] => 0
  | .push v :: ops =>
    (if (rb.Push C v).1 then 0 else 1) + SPSCRingBuffer.failedCount C ((rb.Push C v).2) ops
  | .pop :: ops => SPSCRingBuffer.failedCount C ((rb.Pop C).2) ops

theorem failedCount_le {T : Type} [Inhabited T] (C : Nat) :
    ∀ (ops : List (Op T)) (rb : SPSCRingBuffer T),
      rb.failedCount C ops ≤ ops.length := by
  intro ops
  induction ops with
  | nil =>
    intro rb
    simp [SPSCRingBuffer.failedCount]
  | cons op ops ih =>
    intro rb
    cases op with
    | push v =>
      have := ih (rb.Push C v).2
      simp only [SPSCRingBuffer.failedCount, List.length_cons]
      by_cases h : (rb.Push C v).1 <;> simp [h] <;> omega
    | pop =>
      have := ih (rb.Pop C).2
      simp only [SPSCRingBuffer.failedCount, List.length_cons]
      omega

theorem drop_count_run {T : Type} [Inhabited T] (C : Nat) :
    ∀ (ops : List (Op T)) (rb : SPSCRingBuffer T), rb.drop_count < wordSize →
      (SPSCRingBuffer.run C rb ops).drop_count
        = (rb.drop_count + rb.failedCount C ops) % wordSize := by
  intro ops
  induction ops with
  | nil =>
    intro rb hd
    simp [SPSCRingBuffer.run, SPSCRingBuffer.failedCount, Nat.mod_eq_of_lt hd]
  | cons op ops ih =>
    intro rb hd
    cases op with
    | push v =>
      have hdrop := spsc_push_drop C rb v
      by_cases h : (rb.Push C v).1 = true
      · rw [if_pos h] at hdrop
        have := ih (rb.Push C v).2 (by rw [hdrop]; exact hd)
        simp only [SPSCRingBuffer.run, SPSCRingBuffer.step,
          SPSCRingBuffer.failedCount]
        rw [if_pos h, this, hdrop]
        simp
      · rw [if_neg h] at hdrop
        have hlt : (rb.Push C v).2.drop_count < wordSize := by
          rw [hdrop]
          exact Nat.mod_lt _ (by norm_num [wordSize])
        have := ih (rb.Push C v).2 hlt
        simp only [SPSCRingBuffer.run, SPSCRingBuffer.step,
          SPSCRingBuffer.failedCount]
        rw [if_neg h, this, hdrop, Nat.mod_add_mod]
        congr 1
        omega
    | pop =>
      have hdrop := spsc_pop_drop C rb
      have := ih (rb.Pop C).2 (by rw [hdrop]; exact hd)
      simp only [SPSCRingBuffer.run, SPSCRingBuffer.step,
        SPSCRingBuffer.failedCount]
      rw [this, hdrop]

/-! ### SPSC trace helpers and their projections -/

/-- Push each value of `vs` in order on an SPSC buffer, collecting the
boolean results. -/
def SPSCRingBuffer.pushAll {T : Type} (C : Nat) (rb : SPSCRingBuffer T) :
    List T → List Bool × SPSCRingBuffer T
  | [] => ([], rb)
  | v :: vs =>
    let r := rb.Push C v
    let rest := SPSCRingBuffer.pushAll C r.2 vs
    (r.1 :: rest.1, rest.2)

/-- Pop `n` times on an SPSC buffer, collecting the results. -/
def SPSCRingBuffer.popN {T : Type} [Inhabited T] (C : Nat)
    (rb : SPSCRingBuffer T) : Nat → List (Option T) × SPSCRingBuffer T
  | 0 => ([], rb)
  | n + 1 =>
    let r := rb.Pop C
    let rest := SPSCRingBuffer.popN C r.2 n
    (r.1 :: rest.1, rest.2)

/-- Values returned by the successful pops of an operation sequence on
an SPSC buffer, in order. -/
def SPSCRingBuffer.runPops {T : Type} [Inhabited T] (C : Nat)
    (rb : SPSCRingBuffer T) : List (Op T) → List T
  | [] => []
  | .push v :: ops => SPSCRingBuffer.runPops C (rb.Push C v).2 ops
  | .pop :: ops =>
    let r := rb.Pop C
    match r.1 with
    | none => SPSCRingBuffer.runPops C r.2 ops
    | some x => x :: SPSCRingBuffer.runPops C r.2 ops

/-- True when no push of the operation sequence is executed on a full
SPSC buffer. -/
def SPSCRingBuffer.noFullRun {T : Type} [Inhabited T] (C : Nat)
    (rb : SPSCRingBuffer T) : List (Op T) → Bool
  | [] => true
  | .push v :: ops => !(rb.isFull C) && SPSCRingBuffer.noFullRun C ((rb.Push C v).2) ops
  | .pop :: ops => SPSCRingBuffer.noFullRun C ((rb.Pop C).2) ops

theorem spsc_pushAll_proj {T : Type} (C : Nat) :
    ∀ (vs : List T) (rb : SPSCRingBuffer T),
      (SPSCRingBuffer.pushAll C rb vs).1 = (RingBuffer.pushAll C .Reject rb.toRB vs).1 ∧
      (SPSCRingBuffer.pushAll C rb vs).2.toRB = (RingBuffer.pushAll C .Reject rb.toRB vs).2 := by
  intro vs
  induction vs with
  | nil => intro rb; exact ⟨rfl, rfl⟩
  | cons v vs ih =>
    intro rb
    obtain ⟨h1, h2⟩ := spsc_push_proj C rb v
    have ih2 := ih (rb.Push C v).2
    rw [h2] at ih2
    simp only [SPSCRingBuffer.pushAll, RingBuffer.pushAll]
    exact ⟨by rw [h1, ih2.1], ih2.2⟩

theorem spsc_popN_proj {T : Type} [Inhabited T] (C : Nat) :
    ∀ (n : Nat) (rb : SPSCRingBuffer T),
      (SPSCRingBuffer.popN C rb n).1 = (RingBuffer.popN C rb.toRB n).1 ∧
      (SPSCRingBuffer.popN C rb n).2.toRB = (RingBuffer.popN C rb.toRB n).2 := by
  intro n
  induction n with
  | zero => intro rb; exact ⟨rfl, rfl⟩
  | succ n ih =>
    intro rb
    obtain ⟨h1, h2⟩ := spsc_pop_proj C rb
    have ih2 := ih (rb.Pop C).2
    rw [h2] at ih2
    simp only [SPSCRingBuffer.popN, RingBuffer.popN]
    exact ⟨by rw [h1, ih2.1], ih2.2⟩

theorem spsc_runPops_proj {T : Type} [Inhabited T] (C : Nat) :
    ∀ (ops : List (Op T)) (rb : SPSCRingBuffer T),
      SPSCRingBuffer.runPops C rb ops = RingBuffer.runPops C .Reject rb.toRB ops := by
  intro ops
  induction ops with
  | nil => intro rb; rfl
  | cons op ops ih =>
    intro rb
    cases op with
    | push v =>
      obtain ⟨-, h2⟩ := spsc_push_proj C rb v
      simp only [SPSCRingBuffer.runPops, RingBuffer.runPops]
      rw [ih, h2]
    | pop =>
      obtain ⟨h1, h2⟩ := spsc_pop_proj C rb
      simp only [SPSCRingBuffer.runPops, RingBuffer.runPops]
      rw [h1, ih, h2]

theorem spsc_noFullRun_proj {T : Type} [Inhabited T] (C : Nat) :
    ∀ (ops : List (Op T)) (rb : SPSCRingBuffer T),
      SPSCRingBuffer.noFullRun C rb ops = RingBuffer.noFullRun C .Reject rb.toRB ops := by
  intro ops
  induction ops with
  | nil => intro rb; rfl
  | cons op ops ih =>
    intro rb
    cases op with
    | push v =>
      obtain ⟨-, h2⟩ := spsc_push_proj C rb v
      simp only [SPSCRingBuffer.noFullRun, RingBuffer.noFullRun]
      rw [ih, h2, spsc_isFull_proj]
    | pop =>
      obtain ⟨-, h2⟩ := spsc_pop_proj C rb
      simp only [SPSCRingBuffer.noFullRun, RingBuffer.noFullRun]
      rw [ih, h2]

/-! ### The static capacity assertion accepts exactly the powers of two -/

theorem pow_two_and_pred (k : Nat) : 2 ^ k &&& (2 ^ k - 1) = 0 := by
  rw [Nat.and_pow_two_sub_one_eq_mod, Nat.mod_self]

theorem pow_two_of_and_pred : ∀ C : Nat, C ≠ 0 → C &&& (C - 1) = 0 → ∃ j, C = 2 ^ j := by
  intro C
  induction C using Nat.strong_induction_on with
  | _ C ih =>
    intro hne hand
    rcases Nat.even_or_odd C with he | ho
    · have hmod : C % 2 = 0 := Nat.even_iff.1 he
      have hm1 : 1 ≤ C / 2 := by omega
      have hdiv : C / 2 &&& (C - 1) / 2 = 0 := by
        rw [← Nat.and_div_two, hand]
      have hd2 : (C - 1) / 2 = C / 2 - 1 := by omega
      rw [hd2] at hdiv
      obtain ⟨j, hj⟩ := ih (C / 2) (by omega) (by omega) hdiv
      refine ⟨j + 1, ?_⟩
      rw [Nat.pow_succ]
      omega
    · have hmod : C % 2 = 1 := Nat.odd_iff.1 ho
      rcases Nat.lt_or_ge C 2 with h2 | h2
      · have hC1 : C = 1 := by omega
        exact ⟨0, by omega⟩
      · exfalso
        have hdiv : C / 2 &&& (C - 1) / 2 = 0 := by
          rw [← Nat.and_div_two, hand]
        have hd2 : (C - 1) / 2 = C / 2 := by omega
        rw [hd2, Nat.and_self] at hdiv
        omega

theorem capacityAssertOk_iff (C : Nat) :
    capacityAssertOk C = true ↔ ∃ k, C = 2 ^ k := by
  unfold capacityAssertOk
  simp only [Bool.and_eq_true, bne_iff_ne, ne_eq, beq_iff_eq]
  constructor
  · rintro ⟨h1, h2⟩
    exact pow_two_of_and_pred C h1 h2
  · rintro ⟨k, rfl⟩
    have hpos : 0 < 2 ^ k := Nat.pos_pow_of_pos k (by norm_num)
    exact ⟨by omega, pow_two_and_pred k⟩

/-! ### Claim theorems -/

/-- C2: Overwrite policy: in every reachable full state
(`Size() = Capacity - 1`) of the Overwrite ring buffer, `Push v`
returns `true`, advances `head` by exactly one slot (evicting exactly
the oldest element), stores `v` at the old tail position, and leaves
`Size()` at `Capacity - 1`; concretely, with capacity 4, after pushing
1, 2, 3 and then 4, the next `Pop` returns 2 and `Size()` is then 2. -/
theorem C2_overwrite_policy {T : Type} [Inhabited T] (C k : Nat) (hC : C = 2 ^ k)
    (hk1 : 1 ≤ k) (hk2 : k ≤ 63) (rb : RingBuffer T)
    (hreach : RingBuffer.Reachable C .Overwrite rb)
    (hfull : rb.Size C = C - 1) (v : T) :
    ((rb.Push C .Overwrite v).1 = true ∧
     (rb.Push C .Overwrite v).2.head = (rb.head + 1) &&& Mask C ∧
     (rb.Push C .Overwrite v).2.buffer_ = rb.buffer_.set rb.tail v ∧
     (rb.Push C .Overwrite v).2.Size C = C - 1 ∧
     (rb.Push C .Overwrite v).2.toList C = (rb.toList C).tail ++ [v]) ∧
    ((RingBuffer.run 4 .Overwrite (RingBuffer.init Nat 4)
        [.push 1, .push 2, .push 3, .push 4]).Pop 4).1 = some 2 ∧
    (((RingBuffer.run 4 .Overwrite (RingBuffer.init Nat 4)
        [.push 1, .push 2, .push 3, .push 4]).Pop 4).2).Size 4 = 2 := by
  refine ⟨?_, by decide, by decide⟩
  obtain ⟨q, hab⟩ := reachable_abs hC (by omega) .Overwrite hreach
  have hlen : q.length = C - 1 := by
    rw [← size_eq_len hC (by omega) hab]
    exact hfull
  have hC2 : 2 ≤ C := two_le_of_pow hC (by omega)
  cases q with
  | nil =>
    simp at hlen
    omega
  | cons x q2 =>
    simp only [List.length_cons] at hlen
    obtain ⟨h1, h2, hab2⟩ := push_full_overwrite hC (by omega) hab (by omega) v
    refine ⟨h1, ?_, ?_, ?_, ?_⟩
    · rw [h2, hC, mask_eq_mod]
    · rw [h2]
    · rw [size_eq_len hC (by omega) hab2]
      simp only [List.length_append, List.length_singleton]
      omega
    · rw [toList_eq hC (by omega) hab2, toList_eq hC (by omega) hab]
      simp

/-- Witness for C2: capacity 4, the reachable full state after pushing
1, 2, 3, pushing 4 succeeds. -/
theorem C2_overwrite_policy_witness :
    ((RingBuffer.run 4 .Overwrite (RingBuffer.init Nat 4)
        [.push 1, .push 2, .push 3]).Push 4 .Overwrite 4).1 = true :=
  ((C2_overwrite_policy 4 2 rfl (by decide) (by decide)
      (RingBuffer.run 4 .Overwrite (RingBuffer.init Nat 4)
        [.push 1, .push 2, .push 3])
      ⟨[.push 1, .push 2, .push 3], rfl⟩ (by decide) 4).1).1

/-- C4: Reject policy: in every reachable state of the Reject ring
buffer that is full (`next(tail) == head`), `Push v` returns `false`
and changes nothing at all (the state after equals the state before,
so head, tail, size and every slot are unchanged and `v` is not
stored); concretely, with capacity 4, pushes of 1, 2, 3 succeed, the
push of 4 returns `false`, and `Size()` stays 3. -/
theorem C4_reject_policy {T : Type} [Inhabited T] (C k : Nat) (hC : C = 2 ^ k)
    (hk1 : 1 ≤ k) (hk2 : k ≤ 63) (rb : RingBuffer T)
    (hreach : RingBuffer.Reachable C .Reject rb)
    (hfull : (rb.tail + 1) &&& Mask C = rb.head) (v : T) :
    rb.Push C .Reject v = (false, rb) ∧
    ((RingBuffer.pushAll 4 .Reject (RingBuffer.init Nat 4) [1, 2, 3]).1
        = [true, true, true] ∧
     (RingBuffer.pushAll 4 .Reject (RingBuffer.init Nat 4) [1, 2, 3]).2.Push 4 .Reject 4
        = (false, (RingBuffer.pushAll 4 .Reject (RingBuffer.init Nat 4) [1, 2, 3]).2) ∧
     (RingBuffer.pushAll 4 .Reject (RingBuffer.init Nat 4) [1, 2, 3]).2.Size 4 = 3) := by
  refine ⟨?_, by decide, by decide, by decide⟩
  obtain ⟨q, hab⟩ := reachable_abs hC (by omega) .Reject hreach
  have hfull2 : q.length = C - 1 := by
    rw [mask_succ_tail hC hab] at hfull
    exact (next_tail_eq_head_iff hab.2.1 hab.2.2.2.1).1 hfull
  exact push_full_reject hC hab hfull2 v

/-- Witness for C4: capacity 4, the reachable full state after pushing
1, 2, 3, a push of 9 is rejected without any state change. -/
theorem C4_reject_policy_witness :
    (RingBuffer.run 4 .Reject (RingBuffer.init Nat 4)
        [.push 1, .push 2, .push 3]).Push 4 .Reject 9
      = (false, RingBuffer.run 4 .Reject (RingBuffer.init Nat 4)
          [.push 1, .push 2, .push 3]) :=
  (C4_reject_policy 4 2 rfl (by decide) (by decide)
      (RingBuffer.run 4 .Reject (RingBuffer.init Nat 4)
        [.push 1, .push 2, .push 3])
      ⟨[.push 1, .push 2, .push 3], rfl⟩ (by decide) 9).1

/-- C7: for every reachable state of the RingBuffer under either
policy, `Empty()` returns `true` if and only if `Size()` returns 0. -/
theorem C7_empty_iff_size_zero {T : Type} [Inhabited T] (C k : Nat)
    (hC : C = 2 ^ k) (hk1 : 1 ≤ k) (hk2 : k ≤ 63) (P : OverflowPolicy)
    (rb : RingBuffer T) (hreach : RingBuffer.Reachable C P rb) :
    rb.Empty = true ↔ rb.Size C = 0 := by
  obtain ⟨q, hab⟩ := reachable_abs hC (by omega) P hreach
  rw [empty_iff_nil hab, size_eq_len hC (by omega) hab,
    ← List.length_eq_zero]

/-- Witness for C7: capacity 4, the state after a push and a pop. -/
theorem C7_empty_iff_size_zero_witness :
    (RingBuffer.run 4 .Reject (RingBuffer.init Nat 4) [.push 7, .pop]).Empty = true ↔
    (RingBuffer.run 4 .Reject (RingBuffer.init Nat 4) [.push 7, .pop]).Size 4 = 0 :=
  C7_empty_iff_size_zero 4 2 rfl (by decide) (by decide) .Reject
    (RingBuffer.run 4 .Reject (RingBuffer.init Nat 4) [.push 7, .pop])
    ⟨[.push 7, .pop], rfl⟩

/-- C8: for every reachable non-empty state, `Front()` returns the
element at `head` - the same value the next successful `Pop` returns -
and, being a pure observer in this embedding, modifies no state; on an
empty buffer `Front` fails its assertion (modelled as `none`) instead
of returning a recoverable value. -/
theorem C8_front_contract {T : Type} [Inhabited T] (C k : Nat)
    (hC : C = 2 ^ k) (hk1 : 1 ≤ k) (hk2 : k ≤ 63) (P : OverflowPolicy)
    (rb : RingBuffer T) (hreach : RingBuffer.Reachable C P rb) :
    (rb.Empty = false →
      rb.Front = some (rb.buffer_.getD rb.head default) ∧
      (rb.Pop C).1 = rb.Front) ∧
    (rb.Empty = true → rb.Front = none) := by
  obtain ⟨q, hab⟩ := reachable_abs hC (by omega) P hreach
  constructor
  · intro hne
    have hfr : rb.Front = some (rb.buffer_.getD rb.head default) := by
      rw [RingBuffer.Front, if_neg (by simp [hne])]
    refine ⟨hfr, ?_⟩
    cases q with
    | nil =>
      have := (empty_iff_nil hab).2 rfl
      rw [this] at hne
      cases hne
    | cons x q2 =>
      obtain ⟨hpop, -⟩ := pop_cons hC hab
      rw [hpop, front_eq hab]
      simp
  · intro he
    rw [RingBuffer.Front, if_pos (by simp [he])]

/-- Witness for C8: capacity 4, the reachable state holding a single
element 7. -/
theorem C8_front_contract_witness :
    (RingBuffer.run 4 .Reject (RingBuffer.init Nat 4) [.push 7]).Front
        = some ((RingBuffer.run 4 .Reject (RingBuffer.init Nat 4)
            [.push 7]).buffer_.getD
          (RingBuffer.run 4 .Reject (RingBuffer.init Nat 4) [.push 7]).head default) ∧
    ((RingBuffer.run 4 .Reject (RingBuffer.init Nat 4) [.push 7]).Pop 4).1
        = (RingBuffer.run 4 .Reject (RingBuffer.init Nat 4) [.push 7]).Front :=
  (C8_front_contract 4 2 rfl (by decide) (by decide) .Reject
      (RingBuffer.run 4 .Reject (RingBuffer.init Nat 4) [.push 7])
      ⟨[.push 7], rfl⟩).1 (by decide)

/-- C9: in every reachable state of either variant, `head` and `tail`
lie in `[0, Capacity - 1]`, the slot array has exactly `Capacity`
slots (so the slot accesses of Push, Pop and Front, which are at
`tail` and `head`, are in bounds), and `Size()` is in
`[0, Capacity - 1]`. -/
theorem C9_index_bounds {T : Type} [Inhabited T] (C k : Nat)
    (hC : C = 2 ^ k) (hk1 : 1 ≤ k) (hk2 : k ≤ 63) :
    (∀ (P : OverflowPolicy) (rb : RingBuffer T), RingBuffer.Reachable C P rb →
      rb.head < C ∧ rb.tail < C ∧ rb.buffer_.length = C ∧ rb.Size C ≤ C - 1) ∧
    (∀ s : SPSCRingBuffer T, SPSCRingBuffer.Reachable C s →
      s.head < C ∧ s.tail < C ∧ s.buffer_.length = C) := by
  constructor
  · intro P rb hreach
    obtain ⟨q, hab⟩ := reachable_abs hC (by omega) P hreach
    have htl := bufAbs_tail_lt hab
    have hsz := size_eq_len hC (by omega) hab
    have hql := hab.2.2.2.1
    exact ⟨hab.2.1, htl, hab.1, by omega⟩
  · intro s hreach
    obtain ⟨q, hab⟩ := reachable_abs hC (by omega) .Reject (spsc_reachable_proj hreach)
    have htl := bufAbs_tail_lt hab
    exact ⟨hab.2.1, htl, hab.1⟩

/-- Witness for C9: capacity 4, a state that has wrapped around. -/
theorem C9_index_bounds_witness :
    (RingBuffer.run 4 .Reject (RingBuffer.init Nat 4)
        [.push 1, .push 2, .push 3, .pop, .push 4]).head < 4 ∧
    (RingBuffer.run 4 .Reject (RingBuffer.init Nat 4)
        [.push 1, .push 2, .push 3, .pop, .push 4]).tail < 4 ∧
    (RingBuffer.run 4 .Reject (RingBuffer.init Nat 4)
        [.push 1, .push 2, .push 3, .pop, .push 4]).buffer_.length = 4 ∧
    (RingBuffer.run 4 .Reject (RingBuffer.init Nat 4)
        [.push 1, .push 2, .push 3, .pop, .push 4]).Size 4 ≤ 3 :=
  (C9_index_bounds 4 2 rfl (by decide) (by decide)).1 .Reject
    (RingBuffer.run 4 .Reject (RingBuffer.init Nat 4)
      [.push 1, .push 2, .push 3, .pop, .push 4])
    ⟨[.push 1, .push 2, .push 3, .pop, .push 4], rfl⟩

/-- C10: frame effect of a successful push: in every reachable
not-full state of either variant, `Push v` returns `true` and modifies
only the slot at the old tail (set to `v`) and the tail index (set to
`(tail + 1) & Mask`); head, every other slot, and (for the SPSC
variant) `drop_count` are unchanged. -/
theorem C10_push_frame {T : Type} [Inhabited T] (C k : Nat)
    (hC : C = 2 ^ k) (hk1 : 1 ≤ k) (hk2 : k ≤ 63) :
    (∀ (P : OverflowPolicy) (rb : RingBuffer T) (v : T),
      RingBuffer.Reachable C P rb →
      ¬((rb.tail + 1) &&& Mask C = rb.head) →
      (rb.Push C P v).1 = true ∧
      (rb.Push C P v).2.head = rb.head ∧
      (rb.Push C P v).2.tail = (rb.tail + 1) &&& Mask C ∧
      (rb.Push C P v).2.buffer_ = rb.buffer_.set rb.tail v ∧
      (rb.Push C P v).2.buffer_.getD rb.tail default = v ∧
      (∀ i, i ≠ rb.tail →
        (rb.Push C P v).2.buffer_.getD i default = rb.buffer_.getD i default)) ∧
    (∀ (s : SPSCRingBuffer T) (v : T),
      SPSCRingBuffer.Reachable C s →
      ¬((s.tail + 1) &&& Mask C = s.head) →
      (s.Push C v).1 = true ∧
      (s.Push C v).2.head = s.head ∧
      (s.Push C v).2.tail = (s.tail + 1) &&& Mask C ∧
      (s.Push C v).2.drop_count = s.drop_count ∧
      (s.Push C v).2.buffer_ = s.buffer_.set s.tail v ∧
      (s.Push C v).2.buffer_.getD s.tail default = v ∧
      (∀ i, i ≠ s.tail →
        (s.Push C v).2.buffer_.getD i default = s.buffer_.getD i default)) := by
  constructor
  · intro P rb v hreach hnf
    obtain ⟨q, hab⟩ := reachable_abs hC (by omega) P hreach
    have htl := bufAbs_tail_lt hab
    have hpush : rb.Push C P v
        = (true, { rb with buffer_ := rb.buffer_.set rb.tail v
                           tail := (rb.tail + 1) &&& Mask C }) := by
      simp only [RingBuffer.Push, if_neg hnf]
    rw [hpush]
    refine ⟨rfl, rfl, rfl, rfl, ?_, ?_⟩
    · exact getD_set_self _ _ _ (by rw [hab.1]; exact htl)
    · intro i hi
      exact getD_set_ne _ _ _ _ (fun h => hi h.symm)
  · intro s v hreach hnf
    obtain ⟨q, hab⟩ := reachable_abs hC (by omega) .Reject (spsc_reachable_proj hreach)
    have htl := bufAbs_tail_lt hab
    have hpush : s.Push C v
        = (true, { s with buffer_ := s.buffer_.set s.tail v
                          tail := (s.tail + 1) &&& Mask C }) := by
      simp only [SPSCRingBuffer.Push, if_neg hnf]
    rw [hpush]
    refine ⟨rfl, rfl, rfl, rfl, rfl, ?_, ?_⟩
    · exact getD_set_self _ _ _ (by rw [show s.buffer_.length = C from hab.1]; exact htl)
    · intro i hi
      exact getD_set_ne _ _ _ _ (fun h => hi h.symm)

/-- Witness for C10: capacity 4, pushing 5 on the empty (hence
not-full) buffer succeeds. -/
theorem C10_push_frame_witness :
    ((RingBuffer.init Nat 4).Push 4 .Reject 5).1 = true ∧
    ((RingBuffer.init Nat 4).Push 4 .Reject 5).2.head = (RingBuffer.init Nat 4).head :=
  have h := (C10_push_frame 4 2 rfl (by decide) (by decide)).1 .Reject
    (RingBuffer.init Nat 4) 5 ⟨[], rfl⟩ (by decide)
  ⟨h.1, h.2.1⟩

/-- C1: FIFO order: for either variant, pushing any `N ≤ Capacity - 1`
values into the empty buffer succeeds for every push, and `N` pops
then return exactly the pushed values in order, every pop succeeding;
moreover, for any sequential interleaving of pushes and pops in which
no push meets a full buffer, the popped values followed by the
remaining contents equal exactly the pushed values in order (no loss,
no duplication, no reordering). -/
theorem C1_fifo_order {T : Type} [Inhabited T] (C k : Nat) (hC : C = 2 ^ k)
    (hk1 : 1 ≤ k) (hk2 : k ≤ 63) :
    (∀ (P : OverflowPolicy) (vs : List T), vs.length ≤ C - 1 →
      (RingBuffer.pushAll C P (RingBuffer.init T C) vs).1
          = List.replicate vs.length true ∧
      (RingBuffer.popN C (RingBuffer.pushAll C P (RingBuffer.init T C) vs).2
          vs.length).1 = vs.map some) ∧
    (∀ vs : List T, vs.length ≤ C - 1 →
      (SPSCRingBuffer.pushAll C (SPSCRingBuffer.init T C) vs).1
          = List.replicate vs.length true ∧
      (SPSCRingBuffer.popN C (SPSCRingBuffer.pushAll C (SPSCRingBuffer.init T C) vs).2
          vs.length).1 = vs.map some) ∧
    (∀ (P : OverflowPolicy) (ops : List (Op T)),
      RingBuffer.noFullRun C P (RingBuffer.init T C) ops = true →
      RingBuffer.runPops C P (RingBuffer.init T C) ops
          ++ (RingBuffer.run C P (RingBuffer.init T C) ops).toList C
        = pushedVals ops) ∧
    (∀ ops : List (Op T),
      SPSCRingBuffer.noFullRun C (SPSCRingBuffer.init T C) ops = true →
      SPSCRingBuffer.runPops C (SPSCRingBuffer.init T C) ops
          ++ ((SPSCRingBuffer.run C (SPSCRingBuffer.init T C) ops).toRB).toList C
        = pushedVals ops) := by
  have hk64 : k ≤ 64 := by omega
  have hCpos : 0 < C := by
    have := two_le_of_pow hC (by omega)
    omega
  have habi : bufAbs C (RingBuffer.init T C) [] := bufAbs_init T hCpos
  have hRB : ∀ (P : OverflowPolicy) (vs : List T), vs.length ≤ C - 1 →
      (RingBuffer.pushAll C P (RingBuffer.init T C) vs).1
          = List.replicate vs.length true ∧
      (RingBuffer.popN C (RingBuffer.pushAll C P (RingBuffer.init T C) vs).2
          vs.length).1 = vs.map some := by
    intro P vs hvs
    obtain ⟨h1, h2⟩ := pushAll_abs hC P vs _ [] habi (by simpa using hvs)
    rw [List.nil_append] at h2
    refine ⟨h1, ?_⟩
    have h3 := popN_abs hC vs.length _ _ h2 (le_refl _)
    rw [List.take_length] at h3
    exact h3.1
  have hRB2 : ∀ (P : OverflowPolicy) (ops : List (Op T)),
      RingBuffer.noFullRun C P (RingBuffer.init T C) ops = true →
      RingBuffer.runPops C P (RingBuffer.init T C) ops
          ++ (RingBuffer.run C P (RingBuffer.init T C) ops).toList C
        = pushedVals ops := by
    intro P ops hnf
    obtain ⟨q2, habf, heq⟩ := runPops_conserve hC P ops _ [] habi hnf
    rw [toList_eq hC hk64 habf, heq, List.nil_append]
  refine ⟨hRB, ?_, hRB2, ?_⟩
  · intro vs hvs
    have hp := spsc_pushAll_proj C vs (SPSCRingBuffer.init T C)
    rw [toRB_init] at hp
    have hq := spsc_popN_proj C vs.length
      (SPSCRingBuffer.pushAll C (SPSCRingBuffer.init T C) vs).2
    obtain ⟨hA, hB⟩ := hRB .Reject vs hvs
    refine ⟨by rw [hp.1, hA], ?_⟩
    rw [hq.1, hp.2, hB]
  · intro ops hnf
    rw [spsc_noFullRun_proj, toRB_init] at hnf
    rw [spsc_runPops_proj, spsc_run_proj, toRB_init]
    exact hRB2 .Reject ops hnf

/-- Witness for C1: capacity 4, pushing 1, 2, 3 then popping three
times returns 1, 2, 3 in order. -/
theorem C1_fifo_order_witness :
    (RingBuffer.pushAll 4 .Reject (RingBuffer.init Nat 4) [1, 2, 3]).1
        = List.replicate 3 true ∧
    (RingBuffer.popN 4 (RingBuffer.pushAll 4 .Reject (RingBuffer.init Nat 4)
        [1, 2, 3]).2 3).1 = [some 1, some 2, some 3] :=
  (C1_fifo_order 4 2 rfl (by decide) (by decide)).1 .Reject [1, 2, 3] (by decide)

/-- C3: usable capacity: for every power-of-two capacity `C ≥ 2` and
either variant, `C - 1` pushes from empty all succeed, after which
`Size() = C - 1`, `Empty()` is false and the buffer is full; no
reachable state ever holds more than `C - 1` elements; and the `C`-th
consecutive push behaves per the overflow policy (Reject: `false`, no
change; Overwrite: `true`, size stays `C - 1`; SPSC: `false`). -/
theorem C3_usable_capacity {T : Type} [Inhabited T] (C k : Nat) (hC : C = 2 ^ k)
    (hk1 : 1 ≤ k) (hk2 : k ≤ 63) (vs : List T) (hlen : vs.length = C - 1) :
    (∀ P : OverflowPolicy,
      (RingBuffer.pushAll C P (RingBuffer.init T C) vs).1
          = List.replicate (C - 1) true ∧
      (RingBuffer.pushAll C P (RingBuffer.init T C) vs).2.Size C = C - 1 ∧
      (RingBuffer.pushAll C P (RingBuffer.init T C) vs).2.Empty = false ∧
      (RingBuffer.pushAll C P (RingBuffer.init T C) vs).2.isFull C = true) ∧
    (∀ (P : OverflowPolicy) (rb : RingBuffer T),
      RingBuffer.Reachable C P rb → rb.Size C ≤ C - 1) ∧
    (∀ v : T, (RingBuffer.pushAll C .Reject (RingBuffer.init T C) vs).2.Push C .Reject v
        = (false, (RingBuffer.pushAll C .Reject (RingBuffer.init T C) vs).2)) ∧
    (∀ v : T,
      ((RingBuffer.pushAll C .Overwrite (RingBuffer.init T C) vs).2.Push C .Overwrite v).1
          = true ∧
      ((RingBuffer.pushAll C .Overwrite (RingBuffer.init T C) vs).2.Push C .Overwrite v).2.Size C
          = C - 1) ∧
    ((SPSCRingBuffer.pushAll C (SPSCRingBuffer.init T C) vs).1
        = List.replicate (C - 1) true ∧
     (SPSCRingBuffer.pushAll C (SPSCRingBuffer.init T C) vs).2.Empty = false ∧
     (SPSCRingBuffer.pushAll C (SPSCRingBuffer.init T C) vs).2.isFull C = true ∧
     (∀ v : T, ((SPSCRingBuffer.pushAll C (SPSCRingBuffer.init T C) vs).2.Push C v).1
        = false)) := by
  have hk64 : k ≤ 64 := by omega
  have hC2 : 2 ≤ C := two_le_of_pow hC (by omega)
  have habi : bufAbs C (RingBuffer.init T C) [] := bufAbs_init T (by omega)
  have habs : ∀ P : OverflowPolicy,
      bufAbs C (RingBuffer.pushAll C P (RingBuffer.init T C) vs).2 vs ∧
      (RingBuffer.pushAll C P (RingBuffer.init T C) vs).1
        = List.replicate (C - 1) true := by
    intro P
    obtain ⟨h1, h2⟩ := pushAll_abs hC P vs _ [] habi (by simp [hlen])
    rw [List.nil_append] at h2
    exact ⟨h2, by rw [h1, hlen]⟩
  have hvs_ne : vs ≠ [] := by
    intro h
    rw [h] at hlen
    simp at hlen
    omega
  have hmain : ∀ P : OverflowPolicy,
      (RingBuffer.pushAll C P (RingBuffer.init T C) vs).1
          = List.replicate (C - 1) true ∧
      (RingBuffer.pushAll C P (RingBuffer.init T C) vs).2.Size C = C - 1 ∧
      (RingBuffer.pushAll C P (RingBuffer.init T C) vs).2.Empty = false ∧
      (RingBuffer.pushAll C P (RingBuffer.init T C) vs).2.isFull C = true := by
    intro P
    obtain ⟨h2, h1⟩ := habs P
    refine ⟨h1, ?_, ?_, ?_⟩
    · rw [size_eq_len hC hk64 h2, hlen]
    · rcases Bool.eq_false_or_eq_true
        (RingBuffer.pushAll C P (RingBuffer.init T C) vs).2.Empty with h | h
      · exact absurd ((empty_iff_nil h2).1 h) hvs_ne
      · exact h
    · exact (isFull_iff hC h2).2 hlen
  refine ⟨hmain, ?_, ?_, ?_, ?_⟩
  · intro P rb hreach
    obtain ⟨q, hab⟩ := reachable_abs hC (by omega) P hreach
    have := hab.2.2.2.1
    rw [size_eq_len hC hk64 hab]
    omega
  · intro v
    exact push_full_reject hC (habs .Reject).1 hlen v
  · intro v
    cases vs with
    | nil => exact absurd rfl hvs_ne
    | cons y vs2 =>
      simp only [List.length_cons] at hlen
      obtain ⟨h1, -, hab2⟩ := push_full_overwrite hC (by omega)
        (habs .Overwrite).1 (by omega) v
      refine ⟨h1, ?_⟩
      rw [size_eq_len hC hk64 hab2]
      simp only [List.length_append, List.length_singleton]
      omega
  · have hp := spsc_pushAll_proj C vs (SPSCRingBuffer.init T C)
    rw [toRB_init] at hp
    obtain ⟨hA, hB, hCc, hD⟩ := hmain .Reject
    refine ⟨by rw [hp.1, hA], ?_, ?_, ?_⟩
    · rw [spsc_empty_proj, hp.2, hCc]
    · rw [spsc_isFull_proj, hp.2, hD]
    · intro v
      rw [spsc_push_false_iff, spsc_isFull_proj, hp.2, hD]

/-- Witness for C3: capacity 4 with the three values 1, 2, 3. -/
theorem C3_usable_capacity_witness :
    (RingBuffer.pushAll 4 .Reject (RingBuffer.init Nat 4) [1, 2, 3]).1
        = List.replicate 3 true ∧
    (RingBuffer.pushAll 4 .Reject (RingBuffer.init Nat 4) [1, 2, 3]).2.Size 4 = 3 ∧
    (RingBuffer.pushAll 4 .Reject (RingBuffer.init Nat 4) [1, 2, 3]).2.Empty = false ∧
    (RingBuffer.pushAll 4 .Reject (RingBuffer.init Nat 4) [1, 2, 3]).2.isFull 4 = true :=
  (C3_usable_capacity 4 2 rfl (by decide) (by decide) [1, 2, 3] (by decide)).1 .Reject

/-- C5: SPSC drop accounting: a push returns `false` exactly when the
buffer is full at the call; each failed push increments `drop_count`
by exactly one (`std::size_t` increment), each successful push and
every pop leaves it unchanged, and `GetDropCount` of any run from the
initial state equals the number of pushes of the run that returned
`false` (for any run shorter than `2 ^ 64` operations); concretely,
with capacity 8, after filling to 7 elements the next push returns
`false` and the drop count is 1. -/
theorem C5_drop_accounting {T : Type} [Inhabited T] (C : Nat) :
    (∀ (s : SPSCRingBuffer T) (v : T),
      ((s.Push C v).1 = false ↔ s.isFull C = true)) ∧
    (∀ (s : SPSCRingBuffer T) (v : T), (s.Push C v).1 = false →
      s.drop_count + 1 < wordSize →
      (s.Push C v).2.drop_count = s.drop_count + 1) ∧
    (∀ (s : SPSCRingBuffer T) (v : T), (s.Push C v).1 = true →
      (s.Push C v).2.drop_count = s.drop_count) ∧
    (∀ s : SPSCRingBuffer T,
      (s.Pop C).2.drop_count = s.drop_count ∧ s.GetDropCount = s.drop_count) ∧
    (∀ ops : List (Op T), ops.length < wordSize →
      (SPSCRingBuffer.run C (SPSCRingBuffer.init T C) ops).GetDropCount
        = SPSCRingBuffer.failedCount C (SPSCRingBuffer.init T C) ops) ∧
    ((SPSCRingBuffer.pushAll 8 (SPSCRingBuffer.init Nat 8)
        [1, 2, 3, 4, 5, 6, 7]).1 = List.replicate 7 true ∧
     ((SPSCRingBuffer.pushAll 8 (SPSCRingBuffer.init Nat 8)
        [1, 2, 3, 4, 5, 6, 7]).2.Push 8 8).1 = false ∧
     ((SPSCRingBuffer.pushAll 8 (SPSCRingBuffer.init Nat 8)
        [1, 2, 3, 4, 5, 6, 7]).2.Push 8 8).2.GetDropCount = 1) := by
  refine ⟨spsc_push_false_iff C, ?_, ?_, ?_, ?_, by decide, by decide, by decide⟩
  · intro s v hfail hlt
    have h := spsc_push_drop C s v
    rw [hfail] at h
    simp only [Bool.false_eq_true, if_false] at h
    rw [h, Nat.mod_eq_of_lt hlt]
  · intro s v hok
    have h := spsc_push_drop C s v
    rw [hok, if_pos rfl] at h
    exact h
  · intro s
    exact ⟨spsc_pop_drop C s, rfl⟩
  · intro ops hops
    have h0 : (SPSCRingBuffer.init T C).drop_count < wordSize := by
      norm_num [SPSCRingBuffer.init, wordSize]
    have h := drop_count_run C ops (SPSCRingBuffer.init T C) h0
    have hle := failedCount_le C ops (SPSCRingBuffer.init T C)
    rw [SPSCRingBuffer.GetDropCount, h]
    show ((SPSCRingBuffer.init T C).drop_count + _) % wordSize = _
    have hz : (SPSCRingBuffer.init T C).drop_count = 0 := rfl
    rw [hz, Nat.zero_add, Nat.mod_eq_of_lt (by omega)]

/-- Witness for C5: capacity 8, the drop count after one plain push,
and the concrete fill-to-7-then-overflow scenario. -/
theorem C5_drop_accounting_witness :
    (SPSCRingBuffer.run 8 (SPSCRingBuffer.init Nat 8) [.push 1]).GetDropCount
        = SPSCRingBuffer.failedCount 8 (SPSCRingBuffer.init Nat 8) [.push 1] ∧
    ((SPSCRingBuffer.pushAll 8 (SPSCRingBuffer.init Nat 8)
        [1, 2, 3, 4, 5, 6, 7]).2.Push 8 8).1 = false ∧
    ((SPSCRingBuffer.pushAll 8 (SPSCRingBuffer.init Nat 8)
        [1, 2, 3, 4, 5, 6, 7]).2.Push 8 8).2.GetDropCount = 1 :=
  have h := C5_drop_accounting (T := Nat) 8
  ⟨h.2.2.2.2.1 [.push 1] (by norm_num [wordSize]), h.2.2.2.2.2.2.1, h.2.2.2.2.2.2.2⟩

/-- C6 (counterexample): the claim says every capacity below 2 is
rejected at build time, but the static assertion of both class
templates accepts capacity 1 (it is a power of two), so a buffer with
capacity 1 - which can hold no element at all - compiles. -/
theorem C6_capacity_counterexample : capacityAssertOk 1 = true ∧ 1 < 2 := by
  decide

/-- C6 (amended): the shared static assertion accepts a capacity
exactly when it is a power of two (including `1 = 2 ^ 0`); every other
capacity, including 0 and every non-power-of-two, is rejected at
compile time. -/
theorem C6_capacity_contract (Capacity : Nat) :
    capacityAssertOk Capacity = true ↔ ∃ j, Capacity = 2 ^ j :=
  capacityAssertOk_iff Capacity

end HftCore
